import Mathlib

/-!
Verification of the monthly-planner core (app/MonthlyPlanner.tsx):
calendar generation, pattern-to-plan resolution, grid layout, pattern-store
commit, and the PDF-export pipeline, shallowly embedded in Lean.

A calendar day held at local midnight is represented by its day number
(days since 1970-01-01 in the local calendar).  `civilFromDays` recovers
the civil year/month/day components and embeds the component accessors
`getFullYear`, `getMonth`, `getDate` of the source's `Date` values;
`getDay` embeds the weekday accessor (0 = Sunday .. 6 = Saturday).
`d.setDate(d.getDate() + 1)` advances the day number by one, and
comparison of midnight dates is comparison of day numbers.
-/

namespace Planner

/-- Civil components (year, month 1..12, day-of-month 1..31) of a day
number, by the standard Gregorian conversion.  This embeds what the JS
engine computes for the `getFullYear` / `getMonth` / `getDate` accessors
of a `Date` pinned to local midnight. -/
def civilFromDays (z0 : Int) : Int × Int × Int :=
  let z := z0 + 719468
  let era := z.fdiv 146097
  let doe := z - era * 146097
  let yoe := (doe - doe.fdiv 1460 + doe.fdiv 36524 - doe.fdiv 146096).fdiv 365
  let y := yoe + era * 400
  let doy := doe - (365 * yoe + yoe.fdiv 4 - yoe.fdiv 100)
  let mp := (5 * doy + 2).fdiv 153
  let d := doy - (153 * mp + 2).fdiv 5 + 1
  let m := mp + (if mp < 10 then 3 else -9)
  (if m ≤ 2 then y + 1 else y, m, d)

/-- Embeds `date.getFullYear()`. -/
def getFullYear (z : Int) : Int := (civilFromDays z).1

/-- Embeds `date.getMonth()` (0-based month, as in JS). -/
def getMonth (z : Int) : Int := (civilFromDays z).2.1 - 1

/-- Embeds `date.getDate()` (day of month). -/
def getDate (z : Int) : Int := (civilFromDays z).2.2

/-- Embeds `date.getDay()`: weekday 0 = Sunday .. 6 = Saturday.
1970-01-01 (day number 0) was a Thursday (4). -/
def getDay (z : Int) : Nat := ((z + 4).emod 7).toNat

/-- Embeds `String(n).padStart(2, "0")`. -/
def padStart2 (s : String) : String :=
  String.mk (List.replicate (2 - s.length) (Char.ofNat 48)) ++ s

/-- Embeds `dateKey` (MonthlyPlanner.tsx lines 30-35): the local
`YYYY-MM-DD` key built from the date's own components. -/
def dateKey (z : Int) : String :=
  let c := civilFromDays z
  toString c.1 ++ "-" ++ padStart2 (toString c.2.1) ++ "-" ++ padStart2 (toString c.2.2)

/-- Embeds the `Pattern` record type (lines 18-25).  `days` is the active
weekday filter (0 = Sunday .. 6 = Saturday); the empty list means every
weekday. -/
structure Pattern where
  id : Int
  subjectName : String
  unit : String
  startNum : Int
  countPerDay : Int
  days : List Nat
deriving DecidableEq

/-- Embeds the firing test of `applyAllPatterns` (line 167):
`p.days.length === 0 || p.days.includes(weekday)`. -/
def firesOn (p : Pattern) (wd : Nat) : Bool :=
  p.days.isEmpty || p.days.contains wd

/-- Embeds the line formatting of `applyAllPatterns` (lines 172-181):
one entry when `countPerDay == 1`, a `start-end` range otherwise. -/
def lineFor (p : Pattern) (current : Int) : String :=
  if p.countPerDay = 1 then
    p.subjectName ++ " " ++ toString current ++ p.unit
  else
    p.subjectName ++ " " ++ toString current ++ "-" ++
      toString (current + p.countPerDay - 1) ++ p.unit

/-- Pointwise update of a counter table, embedding `counters.set(k, v)`. -/
def updFun (c : Int → Int) (k v : Int) : Int → Int :=
  fun i => if i = k then v else c i

/-- Embeds one iteration of the inner `patterns.forEach` of
`applyAllPatterns` (lines 165-186): if the pattern fires, push its
formatted line and advance its counter by `countPerDay`. -/
def patternsStep (wd : Nat) (acc : (Int → Int) × List String) (p : Pattern) :
    (Int → Int) × List String :=
  if firesOn p wd then
    let current := acc.1 p.id
    (updFun acc.1 p.id (current + p.countPerDay), acc.2 ++ [lineFor p current])
  else acc

/-- Embeds the full inner loop over patterns for one day, starting from
the given counter table and an empty `lines` array. -/
def dayLines (pats : List Pattern) (wd : Nat) (c : Int → Int) :
    (Int → Int) × List String :=
  pats.foldl (patternsStep wd) (c, [])

/-- Embeds the counter initialisation of `applyAllPatterns`
(lines 155-158): `counters.set(p.id, p.startNum)` for each pattern in
store order (a later pattern with the same id overwrites, as for a JS
`Map`).  The default 0 is never consulted for ids present in the store. -/
def initCounters (pats : List Pattern) : Int → Int :=
  pats.foldl (fun c p => updFun c p.id p.startNum) (fun _ => 0)

/-- The newline separator used by `lines.join("\n")`. -/
def nlStr : String := "\n"

/-- Embeds `lines.join("\n")`. -/
def nlJoin (xs : List String) : String := String.intercalate nlStr xs

/-- Does the record have an entry with the given key (`key in obj`)? -/
def recordHas (m : List (String × String)) (k : String) : Bool :=
  m.any (fun kv => kv.1 == k)

/-- Embeds `obj[key]` lookup on a JS record modelled as an ordered
association list (keys are unique: assignment replaces in place). -/
def recordGet (m : List (String × String)) (k : String) : Option String :=
  (m.find? (fun kv => kv.1 == k)).map (fun kv => kv.2)

/-- Embeds `obj[key] = v` on a JS record: replace the value in place when
the key exists, else append the new key in insertion order. -/
def recordSet (m : List (String × String)) (k v : String) : List (String × String) :=
  if recordHas m k then m.map (fun kv => if kv.1 == k then (k, v) else kv)
  else m ++ [(k, v)]

/-- Embeds the outer `calendar.forEach` of `applyAllPatterns`
(lines 160-189): process each day in order, threading the counter table,
and record the joined lines under the day's key when any pattern fired. -/
def resolveLoop (pats : List Pattern) :
    List Int → (Int → Int) → List (String × String) → List (String × String)
  | [], _, plans => plans
  | z :: rest, c, plans =>
    let r := dayLines pats (getDay z) c
    resolveLoop pats rest r.1
      (if r.2.isEmpty then plans else recordSet plans (dateKey z) (nlJoin r.2))

/-- Embeds the pure core of `applyAllPatterns` (lines 146-192): build a
fresh plan record from the calendar and the pattern store. -/
def applyAllPatterns (calendar : List Int) (pats : List Pattern) :
    List (String × String) :=
  resolveLoop pats calendar (initCounters pats) []

/-- Number of days in `prior` on which pattern `p` fires; used to state
the spec's continuous-numbering property. -/
def firingDaysBefore (p : Pattern) (prior : List Int) : Nat :=
  (prior.filter (fun z => firesOn p (getDay z))).length

/-- The line the spec assigns to pattern `p` on a day preceded by the
days `prior`: its counter is `startNumber` advanced by `countPerDay`
once per earlier firing day (numbering continuous across the range). -/
def specLineOn (p : Pattern) (prior : List Int) : String :=
  lineFor p (p.startNum + p.countPerDay * (firingDaysBefore p prior : Int))

/-- The resolution algorithm exactly as the spec words it, with each
fired pattern's counter given in the closed form of `specLineOn`:
per day, the patterns that fire contribute their lines in store order,
and a day with no firing gets no entry. -/
def specResolveAux (pats : List Pattern) :
    List Int → List Int → List (String × String) → List (String × String)
  | _, [], plans => plans
  | prior, z :: rest, plans =>
    let fired := pats.filter (fun p => firesOn p (getDay z))
    let plans' :=
      if fired.isEmpty then plans
      else recordSet plans (dateKey z) (nlJoin (fired.map (fun p => specLineOn p prior)))
    specResolveAux pats (prior ++ [z]) rest plans'

/-- Entry point of the spec-side resolution. -/
def specResolve (calendar : List Int) (pats : List Pattern) :
    List (String × String) :=
  specResolveAux pats [] calendar []

/-- The per-day entries of the spec-side resolution as a plain list
(no record writes), for reasoning about keys and lookups. -/
def specEntries (pats : List Pattern) : List Int → List Int → List (String × String)
  | _, [] => []
  | prior, z :: rest =>
    (let fired := pats.filter (fun p => firesOn p (getDay z))
     if fired.isEmpty then []
     else [(dateKey z, nlJoin (fired.map (fun p => specLineOn p prior)))]) ++
      specEntries pats (prior ++ [z]) rest

/-- Embeds the date loop of `generateCalendar` (lines 113-117):
`for (let d = new Date(s); d <= e; ) { push d; d.setDate(d.getDate()+1) }`. -/
def buildDays (s e : Int) : List Int :=
  if h : s ≤ e then s :: buildDays (s + 1) e else []
termination_by (e + 1 - s).toNat
decreasing_by simp_wf; omega

/-- The component state threaded through the planner's operations: date
range (absent range modelled as `none`, matching the empty string),
generated calendar, plan record, and pattern store. -/
structure PlannerState where
  startDate : Option Int
  endDate : Option Int
  calendar : List Int
  plans : List (String × String)
  patterns : List Pattern
deriving DecidableEq

/-- Embeds `generateCalendar` (lines 88-119) as a state transition; the
second component records whether the operation aborted with a blocking
alert.  The validation order follows the source: missing date, end
before start, then the 400-day span cap computed as
`floor((e-s)/day)+1`, i.e. `e - s + 1` on day numbers. -/
def generateCalendarOp (st : PlannerState) : PlannerState × Bool :=
  match st.startDate, st.endDate with
  | some s, some e =>
    if e < s then (st, true)
    else if 400 < e - s + 1 then (st, true)
    else ({ st with calendar := buildDays s e }, false)
  | none, _ => (st, true)
  | some _, none => (st, true)

/-- Embeds `applyAllPatterns` as a state transition (lines 146-192): abort
with an alert when no calendar has been generated, otherwise replace the
plan record wholesale with the freshly resolved one. -/
def applyAllPatternsOp (st : PlannerState) : PlannerState × Bool :=
  if st.calendar.isEmpty then (st, true)
  else ({ st with plans := applyAllPatterns st.calendar st.patterns }, false)

/-- Observable outcome of one `exportToPDF` run (lines 196-326):
whether the empty-calendar validation aborted it, whether the offscreen
container is still attached to the document when the run completes,
whether a PDF file was saved, and whether the generic render-failure
alert was shown. -/
structure ExportResult where
  validationFailed : Bool
  containerAttachedAtEnd : Bool
  saved : Bool
  renderErrorAlerted : Bool
deriving DecidableEq

/-- Embeds the control flow of `exportToPDF` (lines 196-326).
`rasterOk` tells whether the awaited `html2canvas` call succeeds and
`assembleOk` whether the subsequent jsPDF assembly/save succeeds.  The
container is appended at line 296 and removed only at line 307, which
runs after a successful capture; the catch block (lines 322-325) logs
and alerts but does not remove the container. -/
def exportToPDF (st : PlannerState) (rasterOk assembleOk : Bool) : ExportResult :=
  if st.calendar.isEmpty then
    { validationFailed := true, containerAttachedAtEnd := false
      saved := false, renderErrorAlerted := false }
  else if rasterOk then
    if assembleOk then
      { validationFailed := false, containerAttachedAtEnd := false
        saved := true, renderErrorAlerted := false }
    else
      { validationFailed := false, containerAttachedAtEnd := false
        saved := false, renderErrorAlerted := true }
  else
    { validationFailed := false, containerAttachedAtEnd := true
      saved := false, renderErrorAlerted := true }

/-- Embeds `gridDates` (lines 345-350) and the identical computation in
`exportToPDF` (lines 219-220): leading blanks = weekday of the first
day, trailing blanks pad the grid to whole weeks. -/
def gridDates (calendar : List Int) : Nat × Nat :=
  match calendar with
  | [] => (0, 0)
  | z :: rest =>
    let leading := getDay z
    (leading, (7 - ((leading + (z :: rest).length) % 7)) % 7)

/-- Embeds the in-place replacement of `addOrUpdatePattern`
(lines 126-129): `next[idx] = {...editingPattern}` at the first index
whose id matches. -/
def replaceFirst : List Pattern → Pattern → List Pattern
  | [], _ => []
  | p :: ps, editing =>
    if p.id = editing.id then editing :: ps else p :: replaceFirst ps editing

/-- Embeds `addOrUpdatePattern` (lines 123-135): replace in place when a
pattern with the editing id exists, else append with a freshly minted
id (`Date.now()`, passed in as `now`). -/
def addOrUpdatePattern (now : Int) (prev : List Pattern) (editing : Pattern) :
    List Pattern :=
  if prev.any (fun p => p.id == editing.id) then replaceFirst prev editing
  else prev ++ [{ editing with id := now }]

/-- Embeds the `onBlur` normalisation of the count-per-day input
(lines 663-667): a zero count is bumped to 1 when focus leaves the
field. -/
def onBlurCountPerDay (editing : Pattern) : Pattern :=
  if editing.countPerDay = 0 then { editing with countPerDay := 1 } else editing

/-- The commit of the pattern editor: pressing the save button first
blurs the count-per-day input (running its `onBlur` normalisation) and
then runs `addOrUpdatePattern` on the normalised editing pattern. -/
def commitPattern (now : Int) (prev : List Pattern) (editing : Pattern) :
    List Pattern :=
  addOrUpdatePattern now prev (onBlurCountPerDay editing)

/-- Embeds the PDF date-display mode (line 59): `"day"` or
`"month-day"`. -/
inductive DateFormat where
  | day
  | monthDay
deriving DecidableEq

/-- One global single-character replacement pass, embedding
`s.replace(/c/g, r)` for a one-character pattern `c`. -/
def replaceChar (t : Char) (r : List Char) : List Char → List Char
  | [] => []
  | c :: cs => (if c = t then r else [c]) ++ replaceChar t r cs

/-- Embeds the plan-text preparation of the export cell (line 264):
`.replace(/</g,"&lt;").replace(/>/g,"&gt;").replace(/\n/g,"<br>")`. -/
def exportPlanText (s : String) : String :=
  String.mk (replaceChar (Char.ofNat 10) ("<br>").toList
    (replaceChar (Char.ofNat 62) ("&gt;").toList
      (replaceChar (Char.ofNat 60) ("&lt;").toList s.toList)))

/-- Embeds the source's `escHTML` helper (lines 45-46): one pass over
the string replacing each of the five structural characters by its
entity. -/
def escHTMLList (cs : List Char) : List Char :=
  match cs with
  | [] => []
  | c :: rest =>
    (if c = Char.ofNat 38 then ("&amp;").toList
     else if c = Char.ofNat 60 then ("&lt;").toList
     else if c = Char.ofNat 62 then ("&gt;").toList
     else if c = Char.ofNat 34 then ("&quot;").toList
     else if c = Char.ofNat 39 then ("&#39;").toList
     else [c]) ++ escHTMLList rest

/-- String form of `escHTMLList`, the source's `escHTML`. -/
def escHTML (s : String) : String := String.mk (escHTMLList s.toList)

/-- The export text the claim asserts: the stored text fully escaped by
`escHTML` with newlines converted to `<br>` line breaks. -/
def specExportText (s : String) : String :=
  String.mk (replaceChar (Char.ofNat 10) ("<br>").toList (escHTMLList s.toList))

/-- Single charwise pass escaping only `<`, `>` and newline; the export
path's chained replacements fuse into this map. -/
def cellEscapeList (cs : List Char) : List Char :=
  match cs with
  | [] => []
  | c :: rest =>
    (if c = Char.ofNat 60 then ("&lt;").toList
     else if c = Char.ofNat 62 then ("&gt;").toList
     else if c = Char.ofNat 10 then ("<br>").toList
     else [c]) ++ cellEscapeList rest

/-- Embeds the date label of the export cell (lines 267-269):
day-of-month alone, or `month/day` with the 1-based month. -/
def dateDisplay (fmt : DateFormat) (z : Int) : String :=
  match fmt with
  | DateFormat.monthDay => toString (getMonth z + 1) ++ "/" ++ toString (getDate z)
  | DateFormat.day => toString (getDate z)

/-- Embeds one export day cell's visible content (lines 261-287): the
date label and the prepared plan text for `plans[key] || ""`. -/
def dayCellContent (plans : List (String × String)) (fmt : DateFormat) (z : Int) :
    String × String :=
  (dateDisplay fmt z, exportPlanText ((recordGet plans (dateKey z)).getD ("")))

/-- One day's entry of the per-day merge of singleton resolutions: the
line each pattern's singleton resolution assigned to this day's key, in
store order, joined when any pattern contributed. -/
def mergeEntry (calendar : List Int) (pats : List Pattern) (z : Int) :
    Option (String × String) :=
  let ls := pats.filterMap (fun q => recordGet (applyAllPatterns calendar [q]) (dateKey z))
  if ls.isEmpty then none else some (dateKey z, nlJoin ls)

/-- The per-day merge, in store order, of resolving each pattern as a
singleton. -/
def mergeSingles (calendar : List Int) (pats : List Pattern) :
    List (String × String) :=
  calendar.filterMap (mergeEntry calendar pats)

end Planner

namespace Planner

theorem beq_string_iff (a b : String) : (a == b) = true ↔ a = b := by
  simp

theorem mem_replaceFirst {ps : List Pattern} {e p : Pattern}
    (h : p ∈ replaceFirst ps e) : p = e ∨ p ∈ ps := by
  induction ps with
  | nil => simp [replaceFirst] at h
  | cons q qs ih =>
    by_cases hq : q.id = e.id
    · simp [replaceFirst, hq] at h
      rcases h with h | h
      · exact Or.inl h
      · exact Or.inr (List.mem_cons_of_mem _ h)
    · simp [replaceFirst, hq] at h
      rcases h with h | h
      · exact Or.inr (by simp [h])
      · rcases ih h with h' | h'
        · exact Or.inl h'
        · exact Or.inr (List.mem_cons_of_mem _ h')

theorem recordSet_of_fresh (m : List (String × String)) (k v : String)
    (h : recordHas m k = false) : recordSet m k v = m ++ [(k, v)] := by
  simp [recordSet, h]

theorem recordGet_eq_none_of_not_key (m : List (String × String)) (k : String)
    (h : ∀ kv ∈ m, kv.1 ≠ k) : recordGet m k = none := by
  unfold recordGet
  rw [List.find?_eq_none.mpr]
  · rfl
  · intro kv hkv
    simpa using h kv hkv

theorem recordGet_append_left_none (m1 m2 : List (String × String)) (k : String)
    (h : ∀ kv ∈ m1, kv.1 ≠ k) : recordGet (m1 ++ m2) k = recordGet m2 k := by
  induction m1 with
  | nil => rfl
  | cons kv m1 ih =>
    have hkv : (kv.1 == k) = false := by
      simpa using h kv (List.mem_cons_self kv m1)
    simp only [List.cons_append, recordGet, List.find?]
    rw [hkv]
    exact ih (fun kv' hkv' => h kv' (List.mem_cons_of_mem _ hkv'))

theorem recordGet_cons_self (k v : String) (m : List (String × String)) :
    recordGet ((k, v) :: m) k = some v := by
  simp [recordGet, List.find?]

theorem filter_isEmpty_eq_not_any {α} (f : α → Bool) (l : List α) :
    (l.filter f).isEmpty = !(l.any f) := by
  induction l with
  | nil => rfl
  | cons a l ih =>
    cases ha : f a <;> simp [List.filter, ha, ih]

theorem filterMap_guard {α β} (f : α → β) (c : α → Bool) (l : List α) :
    (l.filterMap (fun a => if c a then some (f a) else none)) = (l.filter c).map f := by
  induction l with
  | nil => rfl
  | cons a l ih =>
    cases ha : c a <;> simp [List.filterMap_cons, List.filter, ha, ih]

theorem nlJoin_singleton (s : String) : nlJoin [s] = s := by
  rfl

end Planner

namespace Planner

theorem dayFold_spec (wd : Nat) (pats : List Pattern) :
    ∀ (c : Int → Int) (acc : List String),
      (pats.map Pattern.id).Nodup →
      ((pats.foldl (patternsStep wd) (c, acc)).2 =
          acc ++ (pats.filter (fun p => firesOn p wd)).map (fun p => lineFor p (c p.id)))
      ∧ (∀ q ∈ pats, (pats.foldl (patternsStep wd) (c, acc)).1 q.id =
          c q.id + (if firesOn q wd then q.countPerDay else 0))
      ∧ (∀ i, i ∉ pats.map Pattern.id → (pats.foldl (patternsStep wd) (c, acc)).1 i = c i) := by
  induction pats with
  | nil => intro c acc _; exact ⟨by simp, by simp, by simp⟩
  | cons p ps ih =>
    intro c acc hnd
    rw [List.map_cons, List.nodup_cons] at hnd
    obtain ⟨hp, hps⟩ := hnd
    by_cases hf : firesOn p wd
    · have hstep : patternsStep wd (c, acc) p =
          (updFun c p.id (c p.id + p.countPerDay), acc ++ [lineFor p (c p.id)]) := by
        simp [patternsStep, hf]
      obtain ⟨ih1, ih2, ih3⟩ :=
        ih (updFun c p.id (c p.id + p.countPerDay)) (acc ++ [lineFor p (c p.id)]) hps
      have hagree : ∀ q ∈ ps, updFun c p.id (c p.id + p.countPerDay) q.id = c q.id := by
        intro q hq
        have hne : q.id ≠ p.id := by
          intro h
          exact hp (h ▸ List.mem_map_of_mem Pattern.id hq)
        simp [updFun, hne]
      refine ⟨?_, ?_, ?_⟩
      · rw [List.foldl_cons, hstep, ih1,
          List.filter_cons_of_pos (by simpa using hf), List.map_cons]
        rw [List.map_congr_left
          (fun q hq => by rw [hagree q (List.mem_of_mem_filter hq)])]
        simp
      · intro q hq
        rcases List.mem_cons.mp hq with rfl | hq'
        · rw [List.foldl_cons, hstep, ih3 q.id hp]
          simp [updFun, hf]
        · rw [List.foldl_cons, hstep, ih2 q hq', hagree q hq']
      · intro i hi
        rw [List.map_cons, List.mem_cons] at hi
        push_neg at hi
        rw [List.foldl_cons, hstep, ih3 i hi.2]
        simp [updFun, hi.1]
    · have hstep : patternsStep wd (c, acc) p = (c, acc) := by
        simp [patternsStep, hf]
      obtain ⟨ih1, ih2, ih3⟩ := ih c acc hps
      refine ⟨?_, ?_, ?_⟩
      · rw [List.foldl_cons, hstep, ih1, List.filter_cons_of_neg (by simpa using hf)]
      · intro q hq
        rcases List.mem_cons.mp hq with rfl | hq'
        · rw [List.foldl_cons, hstep, ih3 q.id hp]
          simp [hf]
        · rw [List.foldl_cons, hstep]
          exact ih2 q hq'
      · intro i hi
        rw [List.map_cons, List.mem_cons] at hi
        push_neg at hi
        rw [List.foldl_cons, hstep]
        exact ih3 i hi.2

theorem initFold_unset (pats : List Pattern) :
    ∀ (c0 : Int → Int) (i : Int), i ∉ pats.map Pattern.id →
      (pats.foldl (fun c p => updFun c p.id p.startNum) c0) i = c0 i := by
  induction pats with
  | nil => intro c0 i _; rfl
  | cons p ps ih =>
    intro c0 i hi
    rw [List.map_cons, List.mem_cons] at hi
    push_neg at hi
    rw [List.foldl_cons, ih _ i hi.2]
    simp [updFun, hi.1]

theorem initFold_mem (pats : List Pattern) :
    ∀ (c0 : Int → Int), (pats.map Pattern.id).Nodup →
      ∀ p ∈ pats, (pats.foldl (fun c q => updFun c q.id q.startNum) c0) p.id = p.startNum := by
  induction pats with
  | nil => intro c0 _ p hp; simp at hp
  | cons q qs ih =>
    intro c0 hnd p hp
    rw [List.map_cons, List.nodup_cons] at hnd
    obtain ⟨hq, hqs⟩ := hnd
    rcases List.mem_cons.mp hp with rfl | hp'
    · rw [List.foldl_cons, initFold_unset qs _ p.id hq]
      simp [updFun]
    · rw [List.foldl_cons]
      exact ih _ hqs p hp'

theorem initCounters_eq (pats : List Pattern) (hnd : (pats.map Pattern.id).Nodup) :
    ∀ p ∈ pats, initCounters pats p.id = p.startNum :=
  initFold_mem pats _ hnd

theorem firingDaysBefore_append_one (p : Pattern) (prior : List Int) (z : Int) :
    (firingDaysBefore p (prior ++ [z]) : Int) =
      (firingDaysBefore p prior : Int) +
        (if firesOn p (getDay z) then 1 else 0) := by
  unfold firingDaysBefore
  rw [List.filter_append, List.length_append]
  by_cases h : firesOn p (getDay z) <;> simp [h]

theorem resolveLoop_eq_specAux (pats : List Pattern)
    (hnd : (pats.map Pattern.id).Nodup) :
    ∀ (rest prior : List Int) (c : Int → Int) (plans : List (String × String)),
      (∀ p ∈ pats, c p.id =
        p.startNum + p.countPerDay * (firingDaysBefore p prior : Int)) →
      resolveLoop pats rest c plans = specResolveAux pats prior rest plans := by
  intro rest
  induction rest with
  | nil => intro prior c plans _; rfl
  | cons z rest ih =>
    intro prior c plans hagree
    obtain ⟨h1, h2, _⟩ := dayFold_spec (getDay z) pats c [] hnd
    have hlines : (dayLines pats (getDay z) c).2 =
        (pats.filter (fun p => firesOn p (getDay z))).map (fun p => specLineOn p prior) := by
      rw [dayLines, h1, List.nil_append]
      exact List.map_congr_left (fun p hp => by
        rw [hagree p (List.mem_of_mem_filter hp)]; rfl)
    have hagree' : ∀ p ∈ pats, (dayLines pats (getDay z) c).1 p.id =
        p.startNum + p.countPerDay * (firingDaysBefore p (prior ++ [z]) : Int) := by
      intro p hp
      rw [dayLines, h2 p hp, hagree p hp, firingDaysBefore_append_one]
      by_cases h : firesOn p (getDay z)
      · simp only [h, if_true, Nat.cast_add, Nat.cast_one, if_pos]
        ring
      · simp [h]
    simp only [resolveLoop, specResolveAux]
    rw [ih (prior ++ [z]) _ _ hagree', hlines]
    cases List.filter (fun p => firesOn p (getDay z)) pats <;> rfl

theorem applyAllPatterns_closed (cal : List Int) (pats : List Pattern)
    (hnd : (pats.map Pattern.id).Nodup) :
    applyAllPatterns cal pats = specResolve cal pats := by
  unfold applyAllPatterns specResolve
  exact resolveLoop_eq_specAux pats hnd cal [] _ [] (fun p hp => by
    rw [initCounters_eq pats hnd p hp]
    simp [firingDaysBefore])

end Planner

namespace Planner

theorem specAux_eq_append (pats : List Pattern) :
    ∀ (cal prior : List Int) (plans : List (String × String)),
      (∀ z ∈ cal, recordHas plans (dateKey z) = false) →
      ((cal.map dateKey).Nodup) →
      specResolveAux pats prior cal plans = plans ++ specEntries pats prior cal := by
  intro cal
  induction cal with
  | nil => intro prior plans _ _; simp [specResolveAux, specEntries]
  | cons z rest ih =>
    intro prior plans hfresh hnd
    rw [List.map_cons, List.nodup_cons] at hnd
    obtain ⟨hz, hrest⟩ := hnd
    by_cases hfe : (pats.filter (fun p => firesOn p (getDay z))).isEmpty = true
    · simp only [specResolveAux, specEntries]
      rw [if_pos hfe, if_pos hfe]
      rw [ih (prior ++ [z]) plans
        (fun w hw => hfresh w (List.mem_cons_of_mem _ hw)) hrest]
      rfl
    · simp only [specResolveAux, specEntries]
      rw [if_neg hfe, if_neg hfe]
      rw [recordSet_of_fresh plans _ _ (hfresh z (List.mem_cons_self z rest))]
      rw [ih (prior ++ [z]) _ ?_ hrest]
      · simp
      · intro w hw
        have h1 : recordHas plans (dateKey w) = false :=
          hfresh w (List.mem_cons_of_mem _ hw)
        have h2 : dateKey z ≠ dateKey w := by
          intro h
          exact hz (h ▸ List.mem_map_of_mem dateKey hw)
        simp [recordHas, List.any_append] at h1 ⊢
        exact ⟨h1, fun h => absurd h h2⟩

theorem specEntries_keys (pats : List Pattern) :
    ∀ (cal prior : List Int),
      (specEntries pats prior cal).map Prod.fst =
        (cal.filter (fun z => pats.any (fun p => firesOn p (getDay z)))).map dateKey := by
  intro cal
  induction cal with
  | nil => intro prior; rfl
  | cons z rest ih =>
    intro prior
    simp only [specEntries]
    rw [List.map_append, ih (prior ++ [z])]
    rw [filter_isEmpty_eq_not_any] at *
    cases ha : pats.any (fun p => firesOn p (getDay z)) <;>
      simp [List.filter_cons, ha]

theorem key_not_in_specEntries (pats : List Pattern) :
    ∀ (cal prior : List Int) (k : String), k ∉ cal.map dateKey →
      recordGet (specEntries pats prior cal) k = none := by
  intro cal prior k hk
  apply recordGet_eq_none_of_not_key
  intro kv hkv
  intro h
  apply hk
  have : kv.1 ∈ (specEntries pats prior cal).map Prod.fst :=
    List.mem_map_of_mem Prod.fst hkv
  rw [specEntries_keys] at this
  rcases List.mem_map.mp this with ⟨w, hw, hwk⟩
  have hwcal : w ∈ cal := List.mem_of_mem_filter hw
  exact h ▸ hwk ▸ List.mem_map_of_mem dateKey hwcal

theorem recordGet_specEntries_split (pats : List Pattern) (z : Int) :
    ∀ (pre prior post : List Int),
      (((pre ++ z :: post).map dateKey).Nodup) →
      recordGet (specEntries pats prior (pre ++ z :: post)) (dateKey z) =
        (if (pats.filter (fun p => firesOn p (getDay z))).isEmpty then none
         else some (nlJoin ((pats.filter (fun p => firesOn p (getDay z))).map
             (fun p => specLineOn p (prior ++ pre))))) := by
  intro pre
  induction pre with
  | nil =>
    intro prior post hnd
    rw [List.nil_append, List.map_cons, List.nodup_cons] at hnd
    obtain ⟨hz, _⟩ := hnd
    by_cases hfe : (pats.filter (fun p => firesOn p (getDay z))).isEmpty = true
    · simp only [List.nil_append, specEntries]
      rw [if_pos hfe, if_pos hfe, List.nil_append]
      exact key_not_in_specEntries pats post (prior ++ [z]) (dateKey z) hz
    · simp only [List.nil_append, specEntries]
      rw [if_neg hfe, if_neg hfe, List.singleton_append, recordGet_cons_self]
      simp
  | cons w pre ih =>
    intro prior post hnd
    rw [List.cons_append, List.map_cons, List.nodup_cons] at hnd
    obtain ⟨hw, hrest⟩ := hnd
    have hwz : dateKey w ≠ dateKey z := by
      intro h
      apply hw
      rw [h, List.mem_map]
      exact ⟨z, by simp, rfl⟩
    simp only [List.cons_append, specEntries, List.append_eq]
    rw [recordGet_append_left_none _ _ _ ?_]
    · rw [ih (prior ++ [w]) post hrest]
      simp
    · intro kv hkv
      by_cases hfe : (pats.filter (fun p => firesOn p (getDay w))).isEmpty = true
      · rw [if_pos hfe] at hkv
        simp at hkv
      · rw [if_neg hfe] at hkv
        simp at hkv
        rw [hkv]
        exact hwz

theorem applyAllPatterns_eq_specEntries (cal : List Int) (pats : List Pattern)
    (hids : (pats.map Pattern.id).Nodup) (hkeys : (cal.map dateKey).Nodup) :
    applyAllPatterns cal pats = specEntries pats [] cal := by
  rw [applyAllPatterns_closed cal pats hids]
  unfold specResolve
  rw [specAux_eq_append pats cal [] [] (fun z _ => rfl) hkeys]
  rfl

theorem buildDays_eq_map_range :
    ∀ (n : Nat) (s e : Int), (e + 1 - s).toNat = n →
      buildDays s e = (List.range n).map (fun i : Nat => s + (i : Int)) := by
  intro n
  induction n with
  | zero =>
    intro s e h
    rw [buildDays]
    have hgt : ¬ s ≤ e := by omega
    simp [hgt]
  | succ n ih =>
    intro s e h
    have hle : s ≤ e := by omega
    rw [buildDays]
    simp only [hle, dite_true]
    rw [ih (s + 1) e (by omega), List.range_succ_eq_map, List.map_cons, List.map_map]
    congr 1
    · simp
    · exact List.map_congr_left (fun i _ => by
        simp only [Function.comp_apply]
        push_cast
        ring)

theorem buildDays_length (s e : Int) :
    (buildDays s e).length = (e + 1 - s).toNat := by
  rw [buildDays_eq_map_range _ s e rfl]
  simp

theorem buildDays_mem (s e z : Int) : z ∈ buildDays s e ↔ s ≤ z ∧ z ≤ e := by
  rw [buildDays_eq_map_range _ s e rfl]
  simp only [List.mem_map, List.mem_range]
  constructor
  · rintro ⟨i, hi, rfl⟩
    omega
  · intro h
    exact ⟨(z - s).toNat, by omega, by omega⟩

theorem buildDays_pairwise (s e : Int) : (buildDays s e).Pairwise (· < ·) := by
  rw [buildDays_eq_map_range _ s e rfl]
  exact List.Pairwise.map _ (fun a b h => by omega) (List.pairwise_lt_range _)

end Planner

namespace Planner

theorem replaceChar_append (t : Char) (r : List Char) (xs ys : List Char) :
    replaceChar t r (xs ++ ys) = replaceChar t r xs ++ replaceChar t r ys := by
  induction xs with
  | nil => rfl
  | cons c cs ih => simp [replaceChar, ih]

theorem escape_head_fusion (c : Char) :
    replaceChar (Char.ofNat 10) ("<br>").toList
      (replaceChar (Char.ofNat 62) ("&gt;").toList
        (if c = Char.ofNat 60 then ("&lt;").toList else [c])) =
      (if c = Char.ofNat 60 then ("&lt;").toList
       else if c = Char.ofNat 62 then ("&gt;").toList
       else if c = Char.ofNat 10 then ("<br>").toList
       else [c]) := by
  by_cases h60 : c = Char.ofNat 60
  · rw [if_pos h60, if_pos h60]
    decide
  · rw [if_neg h60, if_neg h60]
    by_cases h62 : c = Char.ofNat 62
    · rw [if_pos h62]
      subst h62
      decide
    · rw [if_neg h62]
      by_cases h10 : c = Char.ofNat 10
      · rw [if_pos h10]
        subst h10
        decide
      · rw [if_neg h10]
        simp [replaceChar, h62, h10]

theorem export_fusion (cs : List Char) :
    replaceChar (Char.ofNat 10) ("<br>").toList
      (replaceChar (Char.ofNat 62) ("&gt;").toList
        (replaceChar (Char.ofNat 60) ("&lt;").toList cs)) = cellEscapeList cs := by
  induction cs with
  | nil => rfl
  | cons c cs ih =>
    have hhead : replaceChar (Char.ofNat 60) ("&lt;").toList (c :: cs) =
        (if c = Char.ofNat 60 then ("&lt;").toList else [c]) ++
          replaceChar (Char.ofNat 60) ("&lt;").toList cs := by
      simp [replaceChar]
    rw [hhead, replaceChar_append, replaceChar_append, ih, escape_head_fusion]
    rfl

theorem exportPlanText_eq_cellEscape (s : String) :
    exportPlanText s = String.mk (cellEscapeList s.toList) := by
  unfold exportPlanText
  rw [export_fusion]

end Planner

namespace Planner

theorem singleton_recordGet (q : Pattern) (z : Int) (pre post : List Int)
    (hkeys : (((pre ++ z :: post).map dateKey).Nodup)) :
    recordGet (applyAllPatterns (pre ++ z :: post) [q]) (dateKey z) =
      (if firesOn q (getDay z) then some (specLineOn q pre) else none) := by
  rw [applyAllPatterns_eq_specEntries _ [q] (by simp) hkeys]
  rw [recordGet_specEntries_split [q] z pre [] post hkeys]
  by_cases hf : firesOn q (getDay z)
  · rw [if_pos hf]
    rw [if_neg (by simp [List.filter, hf])]
    simp [List.filter, hf, nlJoin_singleton]
  · rw [if_neg hf]
    rw [if_pos (by simp [List.filter, hf])]

theorem map_isEmpty {α β} (f : α → β) (l : List α) :
    (l.map f).isEmpty = l.isEmpty := by
  cases l <;> rfl

theorem mergeEntry_eq (cal : List Int) (pats : List Pattern) (z : Int)
    (pre rest : List Int) (hsplit : cal = pre ++ z :: rest)
    (hkeys : ((cal.map dateKey).Nodup)) :
    mergeEntry cal pats z =
      (if (pats.filter (fun p => firesOn p (getDay z))).isEmpty then none
       else some (dateKey z, nlJoin ((pats.filter (fun p => firesOn p (getDay z))).map
           (fun q => specLineOn q pre)))) := by
  have hlook : ∀ q, recordGet (applyAllPatterns cal [q]) (dateKey z) =
      (if firesOn q (getDay z) then some (specLineOn q pre) else none) := by
    intro q
    rw [hsplit]
    exact singleton_recordGet q z pre rest (hsplit ▸ hkeys)
  have hls : pats.filterMap (fun q =>
      recordGet (applyAllPatterns cal [q]) (dateKey z)) =
      (pats.filter (fun q => firesOn q (getDay z))).map (fun q => specLineOn q pre) := by
    rw [List.filterMap_congr (fun q _ => hlook q)]
    exact filterMap_guard _ _ pats
  show (if (pats.filterMap (fun q =>
      recordGet (applyAllPatterns cal [q]) (dateKey z))).isEmpty then
      (none : Option (String × String))
    else some (dateKey z, nlJoin (pats.filterMap (fun q =>
      recordGet (applyAllPatterns cal [q]) (dateKey z))))) = _
  rw [hls, map_isEmpty]

theorem merge_suffix (cal : List Int) (pats : List Pattern)
    (hkeys : ((cal.map dateKey).Nodup)) :
    ∀ (suf pre : List Int), cal = pre ++ suf →
      suf.filterMap (mergeEntry cal pats) = specEntries pats pre suf := by
  intro suf
  induction suf with
  | nil => intro pre _; rfl
  | cons z rest ih =>
    intro pre hsplit
    have hrec : rest.filterMap (mergeEntry cal pats) =
        specEntries pats (pre ++ [z]) rest :=
      ih (pre ++ [z]) (by rw [hsplit]; simp)
    have hz1 := mergeEntry_eq cal pats z pre rest hsplit hkeys
    by_cases hfe : (pats.filter (fun p => firesOn p (getDay z))).isEmpty = true
    · rw [List.filterMap_cons_none (by rw [hz1, if_pos hfe])]
      simp only [specEntries]
      rw [if_pos hfe, List.nil_append]
      exact hrec
    · rw [List.filterMap_cons_some (by rw [hz1, if_neg hfe])]
      simp only [specEntries]
      rw [if_neg hfe, List.singleton_append]
      exact congrArg _ hrec

theorem mergeSingles_eq_specEntries (cal : List Int) (pats : List Pattern)
    (hkeys : ((cal.map dateKey).Nodup)) :
    mergeSingles cal pats = specEntries pats [] cal := by
  unfold mergeSingles
  exact merge_suffix cal pats hkeys cal [] rfl

end Planner

namespace Planner

/-- C1: `PlanResolver.resolve` (the pure core of `applyAllPatterns`)
implements the specified algorithm: one counter per pattern starts at its
`startNum`; days are processed in ascending order and patterns in store
order; a pattern fires iff its weekday set is empty or contains the day's
weekday; a firing pattern emits `"{subject} {counter}{unit}"` when
`countPerDay = 1` and `"{subject} {counter}-{counter+countPerDay-1}{unit}"`
otherwise, then advances by `countPerDay`; the counter does not advance on
non-firing days, so each fired line carries the closed-form counter
`startNum + countPerDay * (number of earlier firing days)` — continuous
numbering across the whole range (`specResolve`). -/
theorem applyAllPatterns_matches_spec (cal : List Int) (pats : List Pattern)
    (hids : ((pats.map Pattern.id).Nodup)) :
    applyAllPatterns cal pats = specResolve cal pats :=
  applyAllPatterns_closed cal pats hids

/-- Witness for C1, on the spec's own example: a Monday-only pattern with
`startNum = 1`, `countPerDay = 2` over 1970-01-05 .. 1970-01-12 (two
consecutive Mondays) yields `X 1-2` then `X 3-4` and nothing between. -/
theorem applyAllPatterns_matches_spec_witness :
    (([⟨1, "X", "", 1, 2, [1]⟩] : List Pattern).map Pattern.id).Nodup ∧
      applyAllPatterns [4, 5, 6, 7, 8, 9, 10, 11] [⟨1, "X", "", 1, 2, [1]⟩] =
        specResolve [4, 5, 6, 7, 8, 9, 10, 11] [⟨1, "X", "", 1, 2, [1]⟩] ∧
      applyAllPatterns [4, 5, 6, 7, 8, 9, 10, 11] [⟨1, "X", "", 1, 2, [1]⟩] =
        [("1970-01-05", "X 1-2"), ("1970-01-12", "X 3-4")] :=
  ⟨by decide, applyAllPatterns_matches_spec _ _ (by decide), by decide⟩

/-- C2: for any state whose range is `some s .. some e` with `s ≤ e` and
inclusive span at most 400 days, `generateCalendarOp` succeeds and its
calendar has exactly `e - s + 1` entries, strictly ascending, and contains
precisely the days of the inclusive interval `[s, e]` (no gaps, no
duplicates). -/
theorem generateCalendar_range (st : PlannerState) (s e : Int)
    (hs : st.startDate = some s) (he : st.endDate = some e)
    (hle : s ≤ e) (hspan : e - s + 1 ≤ 400) :
    (generateCalendarOp st).2 = false ∧
      ((generateCalendarOp st).1).calendar.length = (e - s + 1).toNat ∧
      ((generateCalendarOp st).1).calendar.Pairwise (· < ·) ∧
      ∀ z : Int, z ∈ ((generateCalendarOp st).1).calendar ↔ s ≤ z ∧ z ≤ e := by
  have hop : generateCalendarOp st = ({ st with calendar := buildDays s e }, false) := by
    simp only [generateCalendarOp, hs, he]
    rw [if_neg (by omega), if_neg (by omega)]
  rw [hop]
  refine ⟨rfl, ?_, buildDays_pairwise s e, fun z => buildDays_mem s e z⟩
  show (buildDays s e).length = _
  rw [buildDays_length]
  omega

/-- Witness for C2: a seven-day range. -/
theorem generateCalendar_range_witness :
    (0 : Int) ≤ 6 ∧ ((6 : Int) - 0 + 1) ≤ 400 ∧
      ((generateCalendarOp ⟨some 0, some 6, [], [], []⟩).2 = false ∧
        ((generateCalendarOp ⟨some 0, some 6, [], [], []⟩).1).calendar.length =
          ((6 : Int) - 0 + 1).toNat ∧
        ((generateCalendarOp ⟨some 0, some 6, [], [], []⟩).1).calendar.Pairwise (· < ·) ∧
        ∀ z : Int, z ∈ ((generateCalendarOp ⟨some 0, some 6, [], [], []⟩).1).calendar ↔
          0 ≤ z ∧ z ≤ 6) :=
  ⟨by decide, by decide,
    generateCalendar_range ⟨some 0, some 6, [], [], []⟩ 0 6 rfl rfl (by decide) (by decide)⟩

/-- C3: calendar generation fails exactly when the range is absent, ends
before it starts, or spans more than 400 days, and a failing run leaves
the state untouched; pattern application fails exactly when the calendar
is empty and then leaves the state untouched; export on an empty calendar
aborts with the validation message, saves no artifact, and never attaches
the offscreen container. -/
theorem validation_failures_abort (st : PlannerState) (rasterOk assembleOk : Bool) :
    ((generateCalendarOp st).2 = true ↔
        st.startDate = none ∨ st.endDate = none ∨
          ∃ s e, st.startDate = some s ∧ st.endDate = some e ∧
            (e < s ∨ 400 < e - s + 1)) ∧
      ((generateCalendarOp st).2 = true → (generateCalendarOp st).1 = st) ∧
      ((applyAllPatternsOp st).2 = true ↔ st.calendar = []) ∧
      ((applyAllPatternsOp st).2 = true → (applyAllPatternsOp st).1 = st) ∧
      (st.calendar = [] →
        (exportToPDF st rasterOk assembleOk).validationFailed = true ∧
          (exportToPDF st rasterOk assembleOk).saved = false ∧
          (exportToPDF st rasterOk assembleOk).containerAttachedAtEnd = false) := by
  refine ⟨?_, ?_, ?_, ?_, ?_⟩
  · cases hs : st.startDate with
    | none => simp [generateCalendarOp, hs]
    | some s =>
      cases he : st.endDate with
      | none => simp [generateCalendarOp, hs, he]
      | some e =>
        simp only [generateCalendarOp, hs, he]
        by_cases h1 : e < s
        · rw [if_pos h1]
          constructor
          · intro _
            exact Or.inr (Or.inr ⟨s, e, rfl, rfl, Or.inl h1⟩)
          · intro _
            rfl
        · rw [if_neg h1]
          by_cases h2 : 400 < e - s + 1
          · rw [if_pos h2]
            constructor
            · intro _
              exact Or.inr (Or.inr ⟨s, e, rfl, rfl, Or.inr h2⟩)
            · intro _
              rfl
          · rw [if_neg h2]
            constructor
            · intro hfalse
              cases hfalse
            · rintro (h | h | ⟨s', e', hs', he', hcond⟩)
              · cases h
              · cases h
              · injection hs' with hs''
                injection he' with he''
                subst hs''
                subst he''
                rcases hcond with hc | hc
                · exact absurd hc h1
                · exact absurd hc h2
  · intro h
    cases hs : st.startDate with
    | none => simp [generateCalendarOp, hs]
    | some s =>
      cases he : st.endDate with
      | none => simp [generateCalendarOp, hs, he]
      | some e =>
        simp only [generateCalendarOp, hs, he] at h ⊢
        split_ifs at h ⊢
        · rfl
        · rfl
  · cases hc : st.calendar with
    | nil => simp [applyAllPatternsOp, hc]
    | cons a l => simp [applyAllPatternsOp, hc]
  · intro h
    unfold applyAllPatternsOp at h ⊢
    split_ifs at h ⊢
    rfl
  · intro hc
    have hce : st.calendar.isEmpty = true := by rw [hc]; rfl
    simp [exportToPDF, hce]

/-- C4: on a non-empty calendar (with the distinct day keys and distinct
pattern ids the store and builder guarantee), resolution produces a plan
record whose keys are exactly the keys of the days on which some pattern
fires, in day order; each such key holds the fired lines newline-joined in
store order with their closed-form counters; a day with no firing has no
entry at all; and the result is independent of the previous plan record —
manual edits do not survive. -/
theorem applyAllPatterns_replaces_plan_map (st : PlannerState)
    (hne : st.calendar ≠ [])
    (hkeys : ((st.calendar.map dateKey).Nodup))
    (hids : ((st.patterns.map Pattern.id).Nodup)) :
    (((applyAllPatternsOp st).1).plans.map Prod.fst =
        (st.calendar.filter (fun z =>
          st.patterns.any (fun p => firesOn p (getDay z)))).map dateKey) ∧
      (∀ pre z post, st.calendar = pre ++ z :: post →
        ((st.patterns.filter (fun p => firesOn p (getDay z))) ≠ [] →
            recordGet (((applyAllPatternsOp st).1).plans) (dateKey z) =
              some (nlJoin ((st.patterns.filter (fun p => firesOn p (getDay z))).map
                  (fun p => specLineOn p pre)))) ∧
          ((st.patterns.filter (fun p => firesOn p (getDay z))) = [] →
            recordGet (((applyAllPatternsOp st).1).plans) (dateKey z) = none)) ∧
      ∀ plans0, ((applyAllPatternsOp { st with plans := plans0 }).1).plans =
          ((applyAllPatternsOp st).1).plans := by
  have hc : st.calendar.isEmpty = false := by
    cases h : st.calendar with
    | nil => exact absurd h hne
    | cons a l => rfl
  have happ : ∀ (st' : PlannerState), st'.calendar.isEmpty = false →
      ((applyAllPatternsOp st').1).plans = applyAllPatterns st'.calendar st'.patterns := by
    intro st' h
    simp [applyAllPatternsOp, h]
  have hplans : ((applyAllPatternsOp st).1).plans =
      specEntries st.patterns [] st.calendar := by
    rw [happ st hc]
    exact applyAllPatterns_eq_specEntries st.calendar st.patterns hids hkeys
  refine ⟨?_, ?_, ?_⟩
  · rw [hplans, specEntries_keys]
  · intro pre z post hsplit
    constructor
    · intro hfired
      rw [hplans, hsplit,
        recordGet_specEntries_split st.patterns z pre [] post (hsplit ▸ hkeys)]
      rw [if_neg (by
        cases hh : st.patterns.filter (fun p => firesOn p (getDay z)) with
        | nil => exact absurd hh hfired
        | cons a l => simp)]
      rw [List.nil_append]
    · intro hfired
      rw [hplans, hsplit,
        recordGet_specEntries_split st.patterns z pre [] post (hsplit ▸ hkeys)]
      rw [if_pos (by rw [hfired]; rfl)]
  · intro plans0
    rw [happ st hc, happ { st with plans := plans0 } hc]

/-- Witness for C4: two patterns over four days starting on a Monday. -/
theorem applyAllPatterns_replaces_plan_map_witness :
    ((⟨some 4, some 7, [4, 5, 6, 7], [("k", "old")],
        [⟨1, "A", "u", 1, 1, []⟩, ⟨2, "B", "v", 3, 2, [1]⟩]⟩ :
        PlannerState).calendar ≠ []) ∧
      (((applyAllPatternsOp ⟨some 4, some 7, [4, 5, 6, 7], [("k", "old")],
          [⟨1, "A", "u", 1, 1, []⟩, ⟨2, "B", "v", 3, 2, [1]⟩]⟩).1).plans.map Prod.fst =
        (([4, 5, 6, 7] : List Int).filter (fun z =>
          ([⟨1, "A", "u", 1, 1, []⟩, ⟨2, "B", "v", 3, 2, [1]⟩] : List Pattern).any
            (fun p => firesOn p (getDay z)))).map dateKey) :=
  ⟨by decide,
    (applyAllPatterns_replaces_plan_map
      ⟨some 4, some 7, [4, 5, 6, 7], [("k", "old")],
        [⟨1, "A", "u", 1, 1, []⟩, ⟨2, "B", "v", 3, 2, [1]⟩]⟩
      (by decide) (by decide) (by decide)).1⟩

/-- C5: resolution is idempotent and deterministic: running the operation
twice yields the same plan record as running it once, and any state with
the same calendar and the same pattern store resolves to the same plan
record — counters are re-initialised from `startNum` on every run and no
state is carried between invocations. -/
theorem applyAllPatterns_idempotent_deterministic (st : PlannerState)
    (hne : st.calendar ≠ []) :
    ((applyAllPatternsOp ((applyAllPatternsOp st).1)).1).plans =
        ((applyAllPatternsOp st).1).plans ∧
      ∀ st' : PlannerState, st'.calendar = st.calendar → st'.patterns = st.patterns →
        ((applyAllPatternsOp st').1).plans = ((applyAllPatternsOp st).1).plans := by
  have hc : st.calendar.isEmpty = false := by
    cases h : st.calendar with
    | nil => exact absurd h hne
    | cons a l => rfl
  constructor
  · simp [applyAllPatternsOp, hc]
  · intro st' h1 h2
    simp [applyAllPatternsOp, hc, h1, h2]

/-- Witness for C5. -/
theorem applyAllPatterns_idempotent_deterministic_witness :
    ((⟨some 4, some 5, [4, 5], [], [⟨1, "A", "u", 1, 1, []⟩]⟩ :
        PlannerState).calendar ≠ []) ∧
      ((applyAllPatternsOp ((applyAllPatternsOp
          ⟨some 4, some 5, [4, 5], [], [⟨1, "A", "u", 1, 1, []⟩]⟩).1)).1).plans =
        ((applyAllPatternsOp
          ⟨some 4, some 5, [4, 5], [], [⟨1, "A", "u", 1, 1, []⟩]⟩).1).plans :=
  ⟨by decide,
    (applyAllPatterns_idempotent_deterministic
      ⟨some 4, some 5, [4, 5], [], [⟨1, "A", "u", 1, 1, []⟩]⟩ (by decide)).1⟩

/-- C6: for a non-empty calendar the grid layout's leading blank count is
the weekday index of the first day (0 = Sunday), its trailing blank count
is `(7 - (leading + dayCount) % 7) % 7`, both lie in `0..6`, and
`leading + dayCount + trailing` is an exact multiple of 7. -/
theorem gridDates_complete_weeks (cal : List Int) (hne : cal ≠ []) :
    (gridDates cal).1 = getDay (cal.head hne) ∧
      (gridDates cal).2 = (7 - (((gridDates cal).1 + cal.length) % 7)) % 7 ∧
      (gridDates cal).1 ≤ 6 ∧ (gridDates cal).2 ≤ 6 ∧
      ((gridDates cal).1 + cal.length + (gridDates cal).2) % 7 = 0 := by
  rcases cal with _ | ⟨z, rest⟩
  · exact absurd rfl hne
  · have hlt : getDay z < 7 := by
      unfold getDay
      have h1 : 0 ≤ (z + 4).emod 7 := Int.emod_nonneg _ (by norm_num)
      have h2 : (z + 4).emod 7 < 7 := Int.emod_lt_of_pos _ (by norm_num)
      omega
    have hfst : (gridDates (z :: rest)).1 = getDay z := rfl
    have hsnd : (gridDates (z :: rest)).2 =
        (7 - ((getDay z + (z :: rest).length) % 7)) % 7 := rfl
    refine ⟨hfst, ?_, ?_, ?_, ?_⟩
    · rw [hfst]
      exact hsnd
    · rw [hfst]
      omega
    · rw [hsnd]
      omega
    · rw [hfst, hsnd]
      omega

/-- Witness for C6: an eight-day calendar starting on a Monday. -/
theorem gridDates_complete_weeks_witness :
    (([4, 5, 6, 7, 8, 9, 10, 11] : List Int) ≠ []) ∧
      ((gridDates [4, 5, 6, 7, 8, 9, 10, 11]).1 +
        ([4, 5, 6, 7, 8, 9, 10, 11] : List Int).length +
        (gridDates [4, 5, 6, 7, 8, 9, 10, 11]).2) % 7 = 0 :=
  ⟨by decide, (gridDates_complete_weeks [4, 5, 6, 7, 8, 9, 10, 11] (by decide)).2.2.2.2⟩

/-- Counterexample to C7 as stated: on a non-empty calendar, if the
rasterization step throws, the export run completes with the offscreen
container still attached — the catch block never removes it. -/
theorem export_container_leak_on_raster_failure :
    ((⟨some 0, some 0, [0], [], []⟩ : PlannerState).calendar ≠ []) ∧
      (exportToPDF ⟨some 0, some 0, [0], [], []⟩ false true).containerAttachedAtEnd = true :=
  ⟨by decide, by decide⟩

/-- C7 as amended: during export on a non-empty calendar, the offscreen
container is removed whenever rasterization succeeds — including when the
subsequent document assembly throws, since removal happens before
assembly — but when rasterization itself throws, the container is left
attached. -/
theorem export_container_removed_iff_raster_ok (st : PlannerState)
    (rasterOk assembleOk : Bool) (hne : st.calendar ≠ []) :
    (rasterOk = true →
        (exportToPDF st rasterOk assembleOk).containerAttachedAtEnd = false) ∧
      (rasterOk = false →
        (exportToPDF st rasterOk assembleOk).containerAttachedAtEnd = true) := by
  have hc : st.calendar.isEmpty = false := by
    cases h : st.calendar with
    | nil => exact absurd h hne
    | cons a l => rfl
  constructor
  · intro hr
    subst hr
    cases assembleOk <;> simp [exportToPDF, hc]
  · intro hr
    subst hr
    simp [exportToPDF, hc]

/-- Witness for the amended C7. -/
theorem export_container_removed_iff_raster_ok_witness :
    ((⟨some 0, some 0, [0], [], []⟩ : PlannerState).calendar ≠ []) ∧
      ((true : Bool) = true →
        (exportToPDF ⟨some 0, some 0, [0], [], []⟩ true false).containerAttachedAtEnd = false) :=
  ⟨by decide,
    (export_container_removed_iff_raster_ok ⟨some 0, some 0, [0], [], []⟩
      true false (by decide)).1⟩

/-- C8: committing the pattern editor (the blur normalisation of the
count-per-day field followed by `addOrUpdatePattern`) enforces
`countPerDay ≥ 1`: starting from a store whose patterns all satisfy the
invariant and an editing pattern with `countPerDay ≥ 0`, every pattern in
the committed store satisfies `countPerDay ≥ 1`. -/
theorem commitPattern_countPerDay_ge_one (now : Int) (prev : List Pattern)
    (editing : Pattern) (hprev : ∀ p ∈ prev, 1 ≤ p.countPerDay)
    (hed : 0 ≤ editing.countPerDay) :
    ∀ p ∈ commitPattern now prev editing, 1 ≤ p.countPerDay := by
  have hn : 1 ≤ (onBlurCountPerDay editing).countPerDay := by
    unfold onBlurCountPerDay
    by_cases h : editing.countPerDay = 0
    · simp [h]
    · simp only [h, if_false]
      omega
  intro p hp
  unfold commitPattern addOrUpdatePattern at hp
  split at hp
  · rcases mem_replaceFirst hp with rfl | hmem
    · exact hn
    · exact hprev p hmem
  · rcases List.mem_append.mp hp with hmem | hmem
    · exact hprev p hmem
    · simp only [List.mem_singleton] at hmem
      rw [hmem]
      exact hn

/-- Witness for C8: committing a pattern whose count was left at 0. -/
theorem commitPattern_countPerDay_ge_one_witness :
    (∀ p ∈ ([⟨1, "A", "u", 1, 1, []⟩] : List Pattern), 1 ≤ p.countPerDay) ∧
      (0 : Int) ≤ (⟨2, "B", "v", 1, 0, []⟩ : Pattern).countPerDay ∧
      ∀ p ∈ commitPattern 99 [⟨1, "A", "u", 1, 1, []⟩] ⟨2, "B", "v", 1, 0, []⟩,
        1 ≤ p.countPerDay :=
  ⟨by decide, by decide,
    commitPattern_countPerDay_ge_one 99 [⟨1, "A", "u", 1, 1, []⟩] ⟨2, "B", "v", 1, 0, []⟩
      (by decide) (by decide)⟩

/-- Counterexample to C9 as stated: the export cell's plan text is not the
stored text with all structural characters escaped — an ampersand passes
through unescaped (the export path escapes only `<`, `>` and newlines,
while `escHTML`, which also escapes `&` and quotes, is not used there). -/
theorem export_text_leaves_amp_unescaped :
    (dayCellContent [("1970-01-01", "&")] DateFormat.day 0).2 ≠ specExportText ("&") ∧
      escHTML ("&") = "&amp;" ∧
      (dayCellContent [("1970-01-01", "&")] DateFormat.day 0).2 = "&" :=
  ⟨by decide, by decide, by decide⟩

/-- C9 as amended: every export day cell shows the stored plan text with
`<` and `>` escaped and each newline converted to a `<br>` line break
(`&` and quote characters are embedded unchanged), and the date label is
the day-of-month alone in day mode and `month/day` in month-day mode. -/
theorem export_cell_escapes_lt_gt_newline (plans : List (String × String))
    (fmt : DateFormat) (z : Int) :
    dayCellContent plans fmt z =
      ((match fmt with
        | DateFormat.day => toString (getDate z)
        | DateFormat.monthDay => toString (getMonth z + 1) ++ "/" ++ toString (getDate z)),
       String.mk (cellEscapeList ((recordGet plans (dateKey z)).getD ("")).toList)) := by
  unfold dayCellContent dateDisplay
  rw [exportPlanText_eq_cellEscape]
  cases fmt <;> rfl

/-- C10: per-pattern noninterference — with distinct pattern ids and
distinct day keys, resolving the whole pattern list equals the per-day
merge, in store order, of resolving each pattern as a singleton; in
particular each pattern fires on the same days and contributes the same
line whether it is resolved alone or among others. -/
theorem applyAllPatterns_eq_mergeSingles (cal : List Int) (pats : List Pattern)
    (hids : ((pats.map Pattern.id).Nodup)) (hkeys : ((cal.map dateKey).Nodup)) :
    applyAllPatterns cal pats = mergeSingles cal pats := by
  rw [applyAllPatterns_eq_specEntries cal pats hids hkeys,
    mergeSingles_eq_specEntries cal pats hkeys]

/-- Witness for C10: an everyday pattern and a Monday-only pattern over
four days. -/
theorem applyAllPatterns_eq_mergeSingles_witness :
    (([⟨1, "A", "u", 1, 1, []⟩, ⟨2, "B", "v", 3, 2, [1]⟩] : List Pattern).map
        Pattern.id).Nodup ∧
      (([4, 5, 6, 7] : List Int).map dateKey).Nodup ∧
      applyAllPatterns [4, 5, 6, 7] [⟨1, "A", "u", 1, 1, []⟩, ⟨2, "B", "v", 3, 2, [1]⟩] =
        mergeSingles [4, 5, 6, 7] [⟨1, "A", "u", 1, 1, []⟩, ⟨2, "B", "v", 3, 2, [1]⟩] :=
  ⟨by decide, by decide,
    applyAllPatterns_eq_mergeSingles [4, 5, 6, 7]
      [⟨1, "A", "u", 1, 1, []⟩, ⟨2, "B", "v", 3, 2, [1]⟩] (by decide) (by decide)⟩

end Planner
